import Mathlib

/-!
Shallow embedding of the clox bytecode interpreter (value model, open-addressed
hash table, scanner, VM call dispatch, open-upvalue list, compiler capacity
checks), together with theorems settling the specification claims against the
code.  Every definition mirrors the corresponding C function; places where the
C source contains an apparent slip are embedded exactly as written, with a
comment pointing at the line.
-/

namespace Clox

/-! ## Value model (value.h / value.c)

The tagged-union representation of `Value` (the branch of value.c compiled
when `NAN_BOXING` is not defined; the NaN-boxed branch realizes the same
observable equality contract).  IEEE-754 doubles are modelled abstractly:
a double is NaN, a signed infinity, or a finite value given by a sign bit and
a rational magnitude.  The C comparison `a == b` on doubles is numeric
equality: NaN compares unequal to everything, and comparison of finite
values compares the signed real values, so `-0.0 == 0.0`. -/

inductive F64 where
  | nan : F64
  | inf (sign : Bool) : F64
  | fin (sign : Bool) (mag : ℚ) : F64
deriving DecidableEq, Repr

/-- Signed real value of a finite double. -/
def F64.real (sign : Bool) (mag : ℚ) : ℚ := if sign then -mag else mag

/-- IEEE-754 equality on doubles, the meaning of C `==` applied to two
`double`s: NaN is unequal to everything (itself included); infinities compare
by sign; finite values compare by signed real value (so the two zeroes are
equal). -/
def F64.ieeeEq : F64 → F64 → Bool
  | .nan, _ => false
  | _, .nan => false
  | .inf s, .inf t => s == t
  | .inf _, .fin _ _ => false
  | .fin _ _, .inf _ => false
  | .fin s m, .fin t n => decide (F64.real s m = F64.real t n)

/-- The `ValueType` tag enum of value.h. -/
inductive ValueType where
  | VAL_BOOL
  | VAL_NIL
  | VAL_NUMBER
  | VAL_OBJ
deriving DecidableEq, Repr

/-- The `Value` union of value.h.  Heap objects are referenced by address,
modelled as a natural number; `==` on two `Obj*` pointers is equality of
these references. -/
inductive Value where
  | nil
  | bool (b : Bool)
  | number (x : F64)
  | obj (ref : Nat)
deriving DecidableEq, Repr

/-- Tag of a value (the `type` field read by the `IS_*` macros). -/
def Value.type : Value → ValueType
  | .nil => .VAL_NIL
  | .bool _ => .VAL_BOOL
  | .number _ => .VAL_NUMBER
  | .obj _ => .VAL_OBJ

/-- Embedding of `valuesEqual` (value.c lines 77 to 97): values of different
tags are unequal; otherwise dispatch on the tag, with numeric equality for
numbers and pointer equality for objects.  The NaN-boxed branch compiled by
common.h computes the same function: two numbers compare as doubles, and all
other pairs compare by their 64-bit boxed words, which agree exactly on
matching tag and payload. -/
def valuesEqual (a b : Value) : Bool :=
  match a, b with
  | .bool x, .bool y => x == y
  | .nil, .nil => true
  | .number x, .number y => x.ieeeEq y
  | .obj x, .obj y => x == y
  | _, _ => false

/-! ## Open-addressed hash table (table.c)

Keys are interned strings.  An `ObjString` is identified by its heap address
(`ref`) and carries its precomputed FNV-1a hash; interning guarantees one
address per content, so C pointer comparison of keys coincides with equality
of this structure. -/

structure ObjString where
  ref : Nat
  hash : Nat
deriving DecidableEq, Repr

/-- An `Entry` of table.h: a key (NULL modelled as `none`) and a value. -/
structure Entry where
  key : Option ObjString
  value : Value
deriving DecidableEq, Repr

/-- A `Table` of table.h: logical `count`, bucket `capacity`, and the bucket
array, kept as a list of length `capacity`. -/
structure Table where
  count : Nat
  capacity : Nat
  entries : List Entry
deriving DecidableEq, Repr

/-- Embedding of `initTable`. -/
def initTable : Table := ⟨0, 0, []⟩

/-- The probing loop of `findEntry` (table.c lines 38 to 60).  The C loop is
unbounded and terminates by reaching a truly empty bucket or the key; the
embedding carries fuel, and `capacity` units of fuel are enough whenever such
a bucket lies in the probe cycle, since probing steps through all buckets.
`none` models the C loop running forever (no empty bucket, key absent). -/
def findEntryLoop (entries : List Entry) (capacity : Nat) (key : ObjString) :
    Nat → Option Nat → Nat → Option Nat
  | _, _, 0 => none
  | index, tombstone, fuel + 1 =>
    match entries.get? index with
    | none => none
    | some entry =>
      match entry.key with
      | none =>
        if entry.value = Value.nil then
          -- truly empty bucket: reuse the first tombstone if one was seen
          some (tombstone.getD index)
        else
          findEntryLoop entries capacity key ((index + 1) &&& (capacity - 1))
            (if tombstone.isNone then some index else tombstone) fuel
      | some k =>
        if k = key then some index
        else
          findEntryLoop entries capacity key ((index + 1) &&& (capacity - 1))
            tombstone fuel

/-- Embedding of `findEntry`: start probing at `hash & (capacity - 1)` and
return the index of the bucket the C function returns a pointer to. -/
def findEntry (entries : List Entry) (capacity : Nat) (key : ObjString) :
    Option Nat :=
  findEntryLoop entries capacity key (key.hash &&& (capacity - 1)) none capacity

/-- Embedding of `tableGet` (table.c lines 68 to 76). `none` models returning
false (key absent); `some v` models writing `v` through the out pointer. -/
def tableGet (table : Table) (key : ObjString) : Option Value :=
  if table.count = 0 then none
  else
    match findEntry table.entries table.capacity key with
    | none => none
    | some i =>
      match table.entries.get? i with
      | none => none
      | some entry =>
        match entry.key with
        | none => none
        | some _ => some entry.value

/-- One iteration of the reinsertion loop of `adjustCapacity`: skip
NULL-key entries (tombstones and empties), move every keyed entry to its
bucket in the new array, counting it. -/
def adjustStep (capacity : Nat) (acc : Nat × List Entry) (entry : Entry) :
    Nat × List Entry :=
  match entry.key with
  | none => acc
  | some k =>
    match findEntry acc.2 capacity k with
    | none => acc
    | some i => (acc.1 + 1, acc.2.set i ⟨some k, entry.value⟩)

/-- Embedding of `adjustCapacity` (table.c lines 83 to 108): allocate a blank
bucket array, reinsert every non-NULL-key entry at its new home (tombstones
are dropped), and recompute `count`. -/
def adjustCapacity (table : Table) (capacity : Nat) : Table :=
  let blank : List Entry := List.replicate capacity ⟨none, Value.nil⟩
  let res := table.entries.foldl (adjustStep capacity) (0, blank)
  { count := res.1, capacity := capacity, entries := res.2 }

/-- The bucket-update half of `tableSet` (table.c lines 125 to 133): find
the bucket, count a new logical entry when a truly empty bucket is
consumed, and store the key/value pair.  Returns the updated table and
whether a new key was added. -/
def tableSetBody (table : Table) (key : ObjString) (value : Value) :
    Table × Bool :=
  match findEntry table.entries table.capacity key with
  | none => (table, false)
  | some i =>
    match table.entries.get? i with
    | none => (table, false)
    | some entry =>
      let isNewKey := entry.key.isNone
      let count :=
        if isNewKey ∧ entry.value = Value.nil then table.count + 1
        else table.count
      ({ table with count := count, entries := table.entries.set i ⟨some key, value⟩ },
        isNewKey)

/-- Embedding of `tableSet` (table.c lines 118 to 134).  The C load check
`count + 1 > capacity * 0.75` is exact double arithmetic on integers, hence
equivalent to `4 * (count + 1) > 3 * capacity`; `GROW_CAPACITY` doubles with
a floor of 8. -/
def tableSet (table : Table) (key : ObjString) (value : Value) : Table × Bool :=
  let table :=
    if 4 * (table.count + 1) > 3 * table.capacity then
      adjustCapacity table (if table.capacity < 8 then 8 else table.capacity * 2)
    else table
  tableSetBody table key value

/-- Embedding of `tableDelete` (table.c lines 143 to 155).  The source line
151 reads `entry->key == NULL;` — an equality test whose result is discarded,
not an assignment — so the key field is left in place and only the value is
overwritten with `true`.  The embedding reproduces that behaviour. -/
def tableDelete (table : Table) (key : ObjString) : Table × Bool :=
  if table.count = 0 then (table, false)
  else
    match findEntry table.entries table.capacity key with
    | none => (table, false)
    | some i =>
      match table.entries.get? i with
      | none => (table, false)
      | some entry =>
        if entry.key.isNone then (table, false)
        else
          ({ table with
              entries := table.entries.set i { entry with value := Value.bool true } },
            true)

/-- Embedding of `tableRemoveWhite` (table.c lines 200 to 207): walk the
buckets and call `tableDelete` on every key whose object is unmarked.
`marked` models reading `entry->key->obj.isMarked`. -/
def tableRemoveWhite (marked : ObjString → Bool) (table : Table) : Table :=
  (List.range table.capacity).foldl
    (fun acc i =>
      match acc.entries.get? i with
      | none => acc
      | some entry =>
        match entry.key with
        | some k => if ¬ marked k then (tableDelete acc k).1 else acc
        | none => acc)
    table

/-! ## VM global-variable opcodes (vm.c, `run`)

The `OP_DEFINE_GLOBAL` and `OP_SET_GLOBAL` cases of `run`, restricted to
their effect on the globals table.  The returned boolean of `opSetGlobal`
records whether the "Undefined variable" runtime error was raised. -/

/-- The `OP_DEFINE_GLOBAL` case: unconditionally `tableSet` the name, ignore
the result, and continue; there is no error path. -/
def opDefineGlobal (globals : Table) (name : ObjString) (value : Value) : Table :=
  (tableSet globals name value).1

/-- The `OP_SET_GLOBAL` case: `tableSet`; when that reports a fresh key the
name was undefined, so the case calls `tableDelete` on it and raises
"Undefined variable". -/
def opSetGlobal (globals : Table) (name : ObjString) (value : Value) :
    Table × Bool :=
  let res := tableSet globals name value
  if res.2 then ((tableDelete res.1 name).1, true)
  else (res.1, false)

/-! ## Scanner (scanner part of main.c)

The scanner state holds the NUL-terminated source buffer and the `start`,
`current` pointers as indices into it, plus the line counter.  The C buffer
ends at its first NUL byte, so the modelled `src` contains no interior NUL
and the implicit terminator is read as `Char.ofNat 0` past the end. -/

structure Scanner where
  src : List Char
  start : Nat
  current : Nat
  line : Nat
deriving DecidableEq, Repr

/-- Embedding of `initScanner`. -/
def initScanner (source : List Char) : Scanner :=
  { src := source, start := 0, current := 0, line := 1 }

/-- Embedding of `peek`: the byte at `current`, the NUL terminator at the
end of the buffer. -/
def Scanner.peek (s : Scanner) : Char := s.src.getD s.current (Char.ofNat 0)

/-- Embedding of `isAtEnd`: `*current == ASCII NUL`. -/
def Scanner.isAtEnd (s : Scanner) : Bool := s.peek = Char.ofNat 0

/-- Embedding of `peekNext`. -/
def Scanner.peekNext (s : Scanner) : Char :=
  if s.isAtEnd then Char.ofNat 0 else s.src.getD (s.current + 1) (Char.ofNat 0)

/-- Embedding of `advance`: consume and return the byte at `current`. -/
def Scanner.advance (s : Scanner) : Char × Scanner :=
  (s.src.getD s.current (Char.ofNat 0), { s with current := s.current + 1 })

/-- Embedding of `match`: conditionally consume `expected`. -/
def Scanner.matchChar (s : Scanner) (expected : Char) : Bool × Scanner :=
  if s.isAtEnd then (false, s)
  else if s.src.getD s.current (Char.ofNat 0) ≠ expected then (false, s)
  else (true, { s with current := s.current + 1 })

/-- Embedding of `isAlpha`. -/
def isAlpha (c : Char) : Bool :=
  (decide (Char.ofNat 97 ≤ c) && decide (c ≤ Char.ofNat 122)) ||
  (decide (Char.ofNat 65 ≤ c) && decide (c ≤ Char.ofNat 90)) ||
  c = Char.ofNat 95

/-- Embedding of `isDigit`. -/
def isDigit (c : Char) : Bool :=
  decide (Char.ofNat 48 ≤ c) && decide (c ≤ Char.ofNat 57)

/-- The `TokenType` enum of scanner.h (`TOKEN_` prefixes dropped). -/
inductive TokenType where
  | LEFT_PAREN | RIGHT_PAREN | LEFT_BRACE | RIGHT_BRACE
  | COMMA | DOT | MINUS | PLUS | SEMICOLON | SLASH | STAR
  | BANG | BANG_EQUAL | EQUAL | EQUAL_EQUAL
  | GREATER | GREATER_EQUAL | LESS | LESS_EQUAL
  | IDENTIFIER | STRING | NUMBER
  | AND | CLASS | ELSE | FALSE | FOR | FUN | IF | NIL | OR
  | PRINT | RETURN | SUPER | THIS | TRUE | VAR | WHILE
  | ERROR | EOF
deriving DecidableEq, Repr

/-- A `Token` of scanner.h: the C token stores a pointer into the source (or
into a static message) plus a length; the model stores the designated
character run itself. -/
structure Token where
  type : TokenType
  lexeme : List Char
  line : Nat
deriving DecidableEq, Repr

/-- Embedding of `makeToken`: the lexeme spans `[start, current)`. -/
def makeToken (type : TokenType) (s : Scanner) : Token :=
  { type := type,
    lexeme := (s.src.drop s.start).take (s.current - s.start),
    line := s.line }

/-- Embedding of `errorToken`: a synthetic token carrying the message. -/
def errorToken (message : List Char) (s : Scanner) : Token :=
  { type := .ERROR, lexeme := message, line := s.line }

/-- Body of the comment-skipping inner loop of `skipWhitespace`:
`while (peek() != newline and not isAtEnd()) advance();`.  Fuel-recursive;
each iteration advances `current`, so `src.length + 1 - current` units of
fuel always suffice. -/
def skipCommentLoop (s : Scanner) : Nat → Scanner
  | 0 => s
  | fuel + 1 =>
    if s.peek ≠ Char.ofNat 10 ∧ ¬ s.isAtEnd then skipCommentLoop s.advance.2 fuel
    else s

/-- The `for(;;)` loop of `skipWhitespace` (main.c lines 208 to 232).  The
`case` for the slash has no `break`: after the inner loop consumes a comment
body, control falls through into `default: return;`, so the function returns
with `current` still at the terminating newline (and without bumping the
line counter).  The embedding reproduces that fall-through. -/
def skipWhitespaceLoop (s : Scanner) : Nat → Scanner
  | 0 => s
  | fuel + 1 =>
    let c := s.peek
    if c = Char.ofNat 32 ∨ c = Char.ofNat 13 ∨ c = Char.ofNat 9 then
      skipWhitespaceLoop s.advance.2 fuel
    else if c = Char.ofNat 10 then
      skipWhitespaceLoop { s with line := s.line + 1, current := s.current + 1 } fuel
    else if c = Char.ofNat 47 then
      if s.peekNext = Char.ofNat 47 then
        -- missing `break` in the source: the loop does not continue here
        skipCommentLoop s (s.src.length + 1 - s.current)
      else s
    else s

/-- Embedding of `skipWhitespace`. -/
def Scanner.skipWhitespace (s : Scanner) : Scanner :=
  skipWhitespaceLoop s (s.src.length + 1 - s.current)

/-- The identifier-consuming loop of `identifier`. -/
def identLoop (s : Scanner) : Nat → Scanner
  | 0 => s
  | fuel + 1 =>
    if isAlpha s.peek || isDigit s.peek then identLoop s.advance.2 fuel else s

/-- Embedding of `checkKeyword`: length test plus `memcmp` on the keyword
tail. -/
def checkKeyword (s : Scanner) (start length : Nat) (rest : List Char)
    (type : TokenType) : TokenType :=
  if s.current - s.start = start + length ∧
      (s.src.drop (s.start + start)).take length = rest then type
  else .IDENTIFIER

/-- Embedding of `identifierType`: the keyword trie switching on the first
one or two characters of the lexeme. -/
def identifierType (s : Scanner) : TokenType :=
  let c0 := s.src.getD s.start (Char.ofNat 0)
  if c0 = 'a' then checkKeyword s 1 2 "nd".data .AND
  else if c0 = 'c' then checkKeyword s 1 4 "lass".data .CLASS
  else if c0 = 'e' then checkKeyword s 1 3 "lse".data .ELSE
  else if c0 = 'f' then
    if s.current - s.start > 1 then
      let c1 := s.src.getD (s.start + 1) (Char.ofNat 0)
      if c1 = 'a' then checkKeyword s 2 3 "lse".data .FALSE
      else if c1 = 'o' then checkKeyword s 2 1 "r".data .FOR
      else if c1 = 'u' then checkKeyword s 2 1 "n".data .FUN
      else .IDENTIFIER
    else .IDENTIFIER
  else if c0 = 'i' then checkKeyword s 1 1 "f".data .IF
  else if c0 = 'n' then checkKeyword s 1 2 "il".data .NIL
  else if c0 = 'o' then checkKeyword s 1 1 "r".data .OR
  else if c0 = 'p' then checkKeyword s 1 4 "rint".data .PRINT
  else if c0 = 'r' then checkKeyword s 1 5 "eturn".data .RETURN
  else if c0 = 's' then checkKeyword s 1 4 "uper".data .SUPER
  else if c0 = 't' then
    if s.current - s.start > 1 then
      let c1 := s.src.getD (s.start + 1) (Char.ofNat 0)
      if c1 = 'h' then checkKeyword s 2 2 "is".data .THIS
      else if c1 = 'r' then checkKeyword s 2 2 "ue".data .TRUE
      else .IDENTIFIER
    else .IDENTIFIER
  else if c0 = 'v' then checkKeyword s 1 2 "ar".data .VAR
  else if c0 = 'w' then checkKeyword s 1 4 "hile".data .WHILE
  else .IDENTIFIER

/-- Embedding of `identifier`. -/
def identifier (s : Scanner) : Token × Scanner :=
  let s := identLoop s (s.src.length + 1 - s.current)
  (makeToken (identifierType s) s, s)

/-- The digit-consuming loop used twice by `number`. -/
def digitLoop (s : Scanner) : Nat → Scanner
  | 0 => s
  | fuel + 1 => if isDigit s.peek then digitLoop s.advance.2 fuel else s

/-- Embedding of `number`: digits, then an optional dot followed by at least
one digit, then more digits. -/
def number (s : Scanner) : Token × Scanner :=
  let s := digitLoop s (s.src.length + 1 - s.current)
  let s :=
    if s.peek = Char.ofNat 46 && isDigit s.peekNext then
      digitLoop s.advance.2 (s.src.length + 1 - s.current)
    else s
  (makeToken .NUMBER s, s)

/-- The body-consuming loop of `string`, counting embedded newlines. -/
def stringLoop (s : Scanner) : Nat → Scanner
  | 0 => s
  | fuel + 1 =>
    if s.peek ≠ Char.ofNat 34 ∧ ¬ s.isAtEnd then
      let s := if s.peek = Char.ofNat 10 then { s with line := s.line + 1 } else s
      stringLoop s.advance.2 fuel
    else s

/-- Embedding of `string`: consume the body; error when unterminated,
otherwise consume the closing quote. -/
def stringLit (s : Scanner) : Token × Scanner :=
  let s := stringLoop s (s.src.length + 1 - s.current)
  if s.isAtEnd then (errorToken "Unterminated string.".data s, s)
  else
    let s := s.advance.2
    (makeToken .STRING s, s)

/-- Embedding of `scanToken` (main.c lines 321 to 353): skip whitespace, set
`start`, dispatch on the first significant byte, falling back to the
"Unexpected character." error token. -/
def scanToken (s0 : Scanner) : Token × Scanner :=
  let s := s0.skipWhitespace
  let s := { s with start := s.current }
  if s.isAtEnd then (makeToken .EOF s, s)
  else
    let res := s.advance
    let c := res.1
    let s := res.2
    if isAlpha c then identifier s
    else if isDigit c then number s
    else if c = '(' then (makeToken .LEFT_PAREN s, s)
    else if c = ')' then (makeToken .RIGHT_PAREN s, s)
    else if c = Char.ofNat 123 then (makeToken .LEFT_BRACE s, s)
    else if c = Char.ofNat 125 then (makeToken .RIGHT_BRACE s, s)
    else if c = ';' then (makeToken .SEMICOLON s, s)
    else if c = ',' then (makeToken .COMMA s, s)
    else if c = '.' then (makeToken .DOT s, s)
    else if c = '-' then (makeToken .MINUS s, s)
    else if c = '+' then (makeToken .PLUS s, s)
    else if c = '/' then (makeToken .SLASH s, s)
    else if c = '*' then (makeToken .STAR s, s)
    else if c = '!' then
      let m := s.matchChar '='
      (makeToken (if m.1 then .BANG_EQUAL else .BANG) m.2, m.2)
    else if c = '=' then
      let m := s.matchChar '='
      (makeToken (if m.1 then .EQUAL_EQUAL else .EQUAL) m.2, m.2)
    else if c = '<' then
      let m := s.matchChar '='
      (makeToken (if m.1 then .LESS_EQUAL else .LESS) m.2, m.2)
    else if c = '>' then
      let m := s.matchChar '='
      (makeToken (if m.1 then .GREATER_EQUAL else .GREATER) m.2, m.2)
    else if c = Char.ofNat 34 then stringLit s
    else (errorToken "Unexpected character.".data s, s)

/-! ## Open-upvalue list (vm.c `captureUpvalue` / `closeUpvalues`)

The VM's open upvalues form a singly linked list rooted at `vm.openUpvalues`,
each node pointing at a value-stack slot; the list is ordered by decreasing
slot address.  The model records the list of slot addresses (head first). -/

/-- Embedding of `captureUpvalue`: walk past nodes with a higher slot
address; if a node for the requested slot exists, return the list unchanged (the C
function returns that node); otherwise splice a fresh node in at the current
position. -/
def captureUpvalue (slotAddr : Nat) : List Nat → List Nat
  | [] => [slotAddr]
  | u :: rest =>
    if u > slotAddr then u :: captureUpvalue slotAddr rest
    else if u = slotAddr then u :: rest
    else slotAddr :: u :: rest

/-- Embedding of `closeUpvalues`: pop every head node whose slot address is
at or above `last`. -/
def closeUpvalues (last : Nat) : List Nat → List Nat
  | [] => []
  | u :: rest => if u ≥ last then closeUpvalues last rest else u :: rest

/-! ## Compiler capacity checks (compiler.c)

The parser's error-reporting state (`hadError`, `panicMode`) and the two
counting loops whose capacity checks claim C7 is about.  `errorAt` is the
single reporting routine: in panic mode it returns without reporting,
otherwise it enters panic mode and latches `hadError`. -/

structure ParserErrors where
  hadError : Bool
  panicMode : Bool
deriving DecidableEq, Repr

/-- Embedding of `errorAt` (compiler.c lines 140 to 155), restricted to its
effect on the two flags. -/
def errorAt (p : ParserErrors) : ParserErrors :=
  if p.panicMode then p else { hadError := true, panicMode := true }

/-- The parameter loop of `function` (compiler.c lines 945 to 954), iterated
once per parameter of the declaration: bump `arity` (an `int`), report
"Can't have more than 255 parameters." when it exceeds 255.  `parseVariable`
and `defineVariable` touch neither `arity` nor the error flags when the
parameter itself is well formed. -/
def paramLoop : Nat → Nat × ParserErrors → Nat × ParserErrors
  | 0, st => st
  | n + 1, (arity, p) =>
    let arity := arity + 1
    let p := if arity > 255 then errorAt p else p
    paramLoop n (arity, p)

/-- The argument loop of `argumentList` (compiler.c lines 582 to 595),
iterated once per argument of the call: report "Can't have more than 255
arguments" when `argCount` (a `uint8_t`, hence the wrap at 256) already
stands at 255, then increment it. -/
def argLoop : Nat → Nat × ParserErrors → Nat × ParserErrors
  | 0, st => st
  | n + 1, (argCount, p) =>
    let p := if argCount = 255 then errorAt p else p
    argLoop n ((argCount + 1) % 256, p)

/-! ## VM call dispatch (vm.c `call` / `callValue`)

The heap object variants that call dispatch inspects (object.h), addressed
by `Nat` references.  A native's behaviour is its C function pointer,
modelled as a Lean function from `(argCount, args)` to the returned value
(`args` listed bottom-most first, as the C pointer hands them over). -/

inductive Obj where
  | string (s : ObjString)
  | function (arity : Nat) (upvalueCount : Nat)
  | closure (functionRef : Nat)
  | native (fn : Nat → List Value → Value)
  | classObj (name : ObjString) (methods : Table)
  | instanceObj (classRef : Nat) (fields : Table)
  | boundMethod (receiver : Value) (method : Nat)

/-- A `CallFrame` of vm.h: closure reference, instruction pointer, and the
frame base `slots` as an index from the bottom of the value stack. -/
structure CallFrame where
  closure : Nat
  ip : Nat
  slots : Nat

/-- The slice of VM state that call dispatch reads and writes: the heap, the
value stack (top first) and the frame stack. -/
structure VMState where
  heap : Nat → Option Obj
  stack : List Value
  frames : List CallFrame

/-- Result of `call`/`callValue`: `ok` models returning true with the
updated state, `err` models `runtimeError(...); return false;`, and `stuck`
models an unchecked C cast applied to the wrong variant or a dangling
reference (undefined behaviour, unreachable in well-formed states). -/
inductive CallResult where
  | ok (s : VMState)
  | err (msg : String)
  | stuck

/-- The `FRAMES_MAX` frame-stack bound.  vm.h is not among the provided
sources; the spec fixes the frame stack at 64 frames. -/
def FRAMES_MAX : Nat := 64

/-- Embedding of `call` (vm.c lines 675 to 689): check the argument count
against the closure's function's arity, check frame-stack room, then push a
frame whose `slots` base is `stackTop - argCount - 1`. -/
def call (s : VMState) (closureRef argCount : Nat) : CallResult :=
  match s.heap closureRef with
  | some (.closure functionRef) =>
    match s.heap functionRef with
    | some (.function arity _) =>
      if argCount ≠ arity then .err "Expected %d arguments but got %d"
      else if s.frames.length = FRAMES_MAX then .err "Stack overflow."
      else .ok { s with
        frames := s.frames ++ [⟨closureRef, 0, s.stack.length - argCount - 1⟩] }
    | _ => .stuck
  | _ => .stuck

/-- Embedding of `callValue` (vm.c lines 698 to 736), dispatching on the
callee.  `initString` is the VM's cached "init" string; `freshRef` is the
heap address `newInstance` allocates for the class case (fresh by
construction of the allocator). -/
def callValue (s : VMState) (initString : ObjString) (freshRef : Nat)
    (callee : Value) (argCount : Nat) : CallResult :=
  match callee with
  | .obj ref =>
    match s.heap ref with
    | some (.boundMethod receiver method) =>
      let s := { s with stack := s.stack.set argCount receiver }
      call s method argCount
    | some (.classObj _ methods) =>
      let s := { s with
        heap := fun r => if r = freshRef then some (.instanceObj ref initTable)
                         else s.heap r,
        stack := s.stack.set argCount (Value.obj freshRef) }
      match tableGet methods initString with
      | some initializer =>
        match initializer with
        | .obj iref => call s iref argCount
        | _ => .stuck
      | none =>
        if argCount ≠ 0 then .err "Expected 0  arguments but got %d."
        else .ok s
    | some (.closure _) => call s ref argCount
    | some (.native fn) =>
      let result := fn argCount (s.stack.take argCount).reverse
      .ok { s with stack := result :: s.stack.drop (argCount + 1) }
    | some _ => .err "Can only call functions and classes."
    | none => .stuck
  | _ => .err "Can only call functions and classes."

/-- Embedding of `clockNative` (vm.c lines 556 to 558): the reading of the
process clock is the ambient input `now`; the argument count and argument
array are ignored. -/
def clockNative (now : F64) : Nat → List Value → Value :=
  fun _ _ => Value.number now

/-! ## Well-formedness of reachable tables

Invariants that hold for every table built by `tableSet`/`tableDelete` from
`initTable`.  Notably, because the broken `tableDelete` never nulls a key,
reachable tables contain no tombstone buckets: a NULL-key bucket is always
truly empty. -/

/-- Read a bucket, with the truly-empty bucket as the (never-used) default. -/
def entryAt (entries : List Entry) (i : Nat) : Entry :=
  entries.getD i ⟨none, Value.nil⟩

/-- A bucket holding a key. -/
def entryLive (e : Entry) : Bool := e.key.isSome

/-- Number of buckets holding a key. -/
def liveCount (entries : List Entry) : Nat := (entries.filter entryLive).length

/-- Power of two, phrased decidably (the exponent of a power of two is
always below the number itself). -/
@[reducible] def isPow2 (n : Nat) : Prop := ∃ m, m < n ∧ n = 2 ^ m

/-- No tombstone buckets: a NULL key means a truly empty bucket. -/
@[reducible] def noTombstones (entries : List Entry) : Prop :=
  ∀ e ∈ entries, e.key = none → e.value = Value.nil

/-- Distinct buckets hold distinct keys. -/
@[reducible] def uniqKeys (entries : List Entry) : Prop :=
  entries.Pairwise (fun e1 e2 => e1.key.isSome → e1.key ≠ e2.key)

/-- Some bucket of the array holds `k`. -/
@[reducible] def keyIn (entries : List Entry) (k : ObjString) : Prop :=
  ∃ e ∈ entries, e.key = some k

/-- There is a probe path from `k`'s home bucket to bucket `i`: some offset
`d` below the capacity lands on `i` with every earlier probed bucket live. -/
@[reducible] def probePath (entries : List Entry) (cap : Nat) (k : ObjString) (i : Nat) :
    Prop :=
  ∃ d, d < cap ∧ (k.hash % cap + d) % cap = i ∧
    ∀ j, j < d → (entryAt entries ((k.hash % cap + j) % cap)).key.isSome

/-- A probe path all of whose intermediate buckets are live and hold keys
other than `k` — the walk `findEntry` takes before stopping at `i`. -/
def probePathStrict (entries : List Entry) (cap : Nat) (k : ObjString)
    (i : Nat) : Prop :=
  ∃ d, d < cap ∧ (k.hash % cap + d) % cap = i ∧
    ∀ j, j < d → (entryAt entries ((k.hash % cap + j) % cap)).key.isSome ∧
      (entryAt entries ((k.hash % cap + j) % cap)).key ≠ some k

/-- Every key stored in a bucket is reachable from its home by probing. -/
@[reducible] def probeOk (entries : List Entry) (cap : Nat) : Prop :=
  ∀ i, i < cap → (entryAt entries i).key.isSome →
    probePath entries cap ((entryAt entries i).key.getD ⟨0, 0⟩) i

/-- Well-formedness of a table state reachable in the interpreter: either
the pristine zero-capacity table, or a power-of-two bucket array with an
accurate live count kept strictly below capacity, no tombstones, distinct
keys, and probe-reachable keys. -/
@[reducible] def tableWF (t : Table) : Prop :=
  (t.capacity = 0 ∧ t.count = 0 ∧ t.entries = []) ∨
  (isPow2 t.capacity ∧ t.entries.length = t.capacity ∧
    t.count = liveCount t.entries ∧ t.count < t.capacity ∧
    noTombstones t.entries ∧ uniqKeys t.entries ∧
    probeOk t.entries t.capacity)

/-- The bucket-array half of `tableWF`, also maintained for the fresh array
during a rehash. -/
def entriesWF (entries : List Entry) (cap : Nat) : Prop :=
  isPow2 cap ∧ entries.length = cap ∧ noTombstones entries ∧
  uniqKeys entries ∧ probeOk entries cap

/-! ## Theorems: invariants, helper lemmas, and claim verdicts -/

/-! ## Claims C1, C2, C3: the tableDelete slip -/

/-- C1: the claim states that `tableSet` then `tableDelete` leaves the key
absent for `tableGet`, with the deleted bucket turned into a tombstone (NULL
key, value `true`).  The code falsifies this: because line 151 of table.c
compares instead of assigning, the bucket keeps its key, so `tableGet`
still reports the key as present, now bound to the boolean `true`. -/
theorem C1_tableDelete_leaves_binding :
    tableGet ((tableDelete ((tableSet initTable ⟨1, 1⟩ (Value.obj 42)).1) ⟨1, 1⟩).1) ⟨1, 1⟩
      = some (Value.bool true) ∧
    ((tableDelete ((tableSet initTable ⟨1, 1⟩ (Value.obj 42)).1) ⟨1, 1⟩).1.entries.get? 1)
      = some ⟨some ⟨1, 1⟩, Value.bool true⟩ := by
  constructor <;> rfl

/-- C1 sanity half: the set-then-get direction of the claim does hold on the
same input. -/
theorem C1_set_get_holds :
    tableGet ((tableSet initTable ⟨1, 1⟩ (Value.obj 42)).1) ⟨1, 1⟩
      = some (Value.obj 42) := by rfl

/-- C2: the claim states that `OP_SET_GLOBAL` on an undefined name raises the
runtime error and leaves the globals table unchanged, the freshly inserted
entry having been deleted.  The code does raise the error, but the broken
`tableDelete` keeps the key, so a binding of the name to the boolean `true`
remains observable through `tableGet` afterwards. -/
theorem C2_setGlobal_leaves_binding :
    (opSetGlobal initTable ⟨1, 1⟩ (Value.obj 42)).2 = true ∧
    tableGet (opSetGlobal initTable ⟨1, 1⟩ (Value.obj 42)).1 ⟨1, 1⟩
      = some (Value.bool true) := by
  constructor <;> rfl

/-- C3: the claim states that after `tableRemoveWhite` no entry with an
unmarked key string remains in the intern table.  With the broken
`tableDelete`, the walk leaves every such entry in place with its key intact
(value overwritten with `true`), so the table still references the string
that the sweep is about to free. -/
theorem C3_removeWhite_keeps_unmarked_entry :
    ((tableRemoveWhite (fun _ => false)
        ((tableSet initTable ⟨1, 1⟩ (Value.obj 5)).1)).entries.get? 1)
      = some ⟨some ⟨1, 1⟩, Value.bool true⟩ := by rfl

/-! ## Claim C4: comments are not skipped cleanly -/

/-- C4: the claim states that after a `//` comment followed by a newline the
next `scanToken` call returns the first significant token after that line
(never an Error token) with the line counter advanced.  The missing `break`
in `skipWhitespace` makes the function return while still standing on the
newline, so `scanToken` falls through its dispatch switch and produces the
"Unexpected character." error token for the newline, with the line counter
still at 1. -/
theorem C4_comment_newline_error_token :
    (scanToken (initScanner "// c\n1".data)).1
        = { type := .ERROR, lexeme := "Unexpected character.".data, line := 1 } ∧
    (scanToken (initScanner "// c\n1".data)).2.line = 1 := by
  constructor <;> rfl

/-- C4 sanity half: without a comment the scanner does skip whitespace and
newlines, advancing the line counter: scanning " \n1" yields the number
token `1` on line 2. -/
theorem C4_whitespace_skipped_sanity :
    (scanToken (initScanner " \n1".data)).1
      = { type := .NUMBER, lexeme := "1".data, line := 2 } := by rfl

/-- Membership after a capture: exactly the old slots plus the requested
one. -/
theorem mem_captureUpvalue (slotAddr y : Nat) (l : List Nat) :
    y ∈ captureUpvalue slotAddr l ↔ y = slotAddr ∨ y ∈ l := by
  induction l with
  | nil => simp [captureUpvalue]
  | cons u rest ih =>
    simp only [captureUpvalue]
    split
    · simp only [List.mem_cons, ih]
      tauto
    · split
      · next h1 h2 =>
        subst h2
        simp only [List.mem_cons]
        tauto
      · simp only [List.mem_cons]

/-- A capture of a slot that is already on a sorted list returns the list
unchanged: the existing upvalue is reused, no node is created. -/
theorem captureUpvalue_mem_eq (slotAddr : Nat) (l : List Nat)
    (hs : l.Pairwise (· > ·)) (hm : slotAddr ∈ l) : captureUpvalue slotAddr l = l := by
  induction l with
  | nil => cases hm
  | cons u rest ih =>
    rcases List.mem_cons.mp hm with h | h
    · subst h
      simp [captureUpvalue]
    · have hu : u > slotAddr := (List.pairwise_cons.mp hs).1 slotAddr h
      simp only [captureUpvalue, if_pos hu]
      rw [ih (List.pairwise_cons.mp hs).2 h]

/-- A capture preserves the strictly-decreasing order of the list. -/
theorem captureUpvalue_pairwise (slotAddr : Nat) (l : List Nat)
    (hs : l.Pairwise (· > ·)) :
    (captureUpvalue slotAddr l).Pairwise (· > ·) := by
  induction l with
  | nil => simp [captureUpvalue]
  | cons u rest ih =>
    obtain ⟨hu, hrest⟩ := List.pairwise_cons.mp hs
    by_cases h1 : u > slotAddr
    · simp only [captureUpvalue, if_pos h1]
      refine List.pairwise_cons.mpr ⟨?_, ih hrest⟩
      intro y hy
      rcases (mem_captureUpvalue slotAddr y rest).mp hy with h | h
      · omega
      · exact hu y h
    · by_cases h2 : u = slotAddr
      · subst h2
        simpa [captureUpvalue] using hs
      · simp only [captureUpvalue, if_neg h1, if_neg h2]
        refine List.pairwise_cons.mpr ⟨?_, hs⟩
        intro y hy
        rcases List.mem_cons.mp hy with h | h
        · omega
        · have := hu y h
          omega

/-- On a sorted list, closing at a boundary removes exactly the slots at or
above the boundary. -/
theorem closeUpvalues_eq_filter (last : Nat) (l : List Nat)
    (hs : l.Pairwise (· > ·)) :
    closeUpvalues last l = l.filter (fun u => decide (u < last)) := by
  induction l with
  | nil => rfl
  | cons u rest ih =>
    obtain ⟨hu, hrest⟩ := List.pairwise_cons.mp hs
    by_cases h : u ≥ last
    · have : ¬ (u < last) := by omega
      simp only [closeUpvalues, if_pos h, List.filter_cons, decide_eq_true_eq]
      rw [if_neg this]
      exact ih hrest
    · have hlt : u < last := by omega
      simp only [closeUpvalues, if_neg h, List.filter_cons, decide_eq_true_eq]
      rw [if_pos hlt, List.filter_eq_self.mpr]
      intro y hy
      have := hu y hy
      simp only [decide_eq_true_eq]
      omega

/-! ## Claim C5: the open-upvalue list invariant -/

/-- C5: at any suspension point the open-upvalue list is strictly descending
by slot with at most one upvalue per slot, and the two operations preserve
this: a capture of an already-open slot returns the list unchanged (the
existing upvalue is reused), a capture of a fresh slot inserts it at its
sorted place (the slots afterwards being the old ones plus the new, the new
slot present exactly once, the order still strictly descending), and a close
at a boundary removes exactly the slots at or above the boundary, preserving
the order. -/
theorem C5_open_upvalue_invariant (l : List Nat) (slot boundary : Nat)
    (hs : l.Pairwise (· > ·)) :
    (captureUpvalue slot l).Pairwise (· > ·) ∧
    (slot ∈ l → captureUpvalue slot l = l) ∧
    (∀ y, y ∈ captureUpvalue slot l ↔ y = slot ∨ y ∈ l) ∧
    (captureUpvalue slot l).count slot = 1 ∧
    closeUpvalues boundary l = l.filter (fun u => decide (u < boundary)) ∧
    (closeUpvalues boundary l).Pairwise (· > ·) := by
  have hpair := captureUpvalue_pairwise slot l hs
  have hnodup : (captureUpvalue slot l).Nodup := hpair.imp fun h => by omega
  have hclose := closeUpvalues_eq_filter boundary l hs
  refine ⟨hpair, captureUpvalue_mem_eq slot l hs,
    fun y => mem_captureUpvalue slot y l,
    List.count_eq_one_of_mem hnodup ((mem_captureUpvalue slot slot l).mpr (Or.inl rfl)),
    hclose, ?_⟩
  rw [hclose]
  exact hs.filter _

/-- Witness for C5 at a concrete sorted list. -/
theorem C5_open_upvalue_invariant_witness :
    (captureUpvalue 4 [5, 3, 1]).Pairwise (· > ·) ∧
    (4 ∈ [5, 3, 1] → captureUpvalue 4 [5, 3, 1] = [5, 3, 1]) ∧
    (∀ y, y ∈ captureUpvalue 4 [5, 3, 1] ↔ y = 4 ∨ y ∈ [5, 3, 1]) ∧
    (captureUpvalue 4 [5, 3, 1]).count 4 = 1 ∧
    closeUpvalues 3 [5, 3, 1] = [5, 3, 1].filter (fun u => decide (u < 3)) ∧
    (closeUpvalues 3 [5, 3, 1]).Pairwise (· > ·) :=
  C5_open_upvalue_invariant [5, 3, 1] 4 3 (by decide)

set_option maxRecDepth 4000 in
/-- C7: a function declaration with exactly 255 parameters raises no
capacity error and a 256th parameter raises one; a call with exactly 255
arguments raises no capacity error and a 256th argument raises one. -/
theorem C7_param_and_arg_caps :
    (paramLoop 255 (0, ⟨false, false⟩)).2.hadError = false ∧
    (paramLoop 256 (0, ⟨false, false⟩)).2.hadError = true ∧
    (argLoop 255 (0, ⟨false, false⟩)).2.hadError = false ∧
    (argLoop 256 (0, ⟨false, false⟩)).2.hadError = true := by
  refine ⟨by decide, by decide, by decide, by decide⟩

/-! ## Claim C8: the valuesEqual contract -/

/-- C8: `valuesEqual` compares by tag first (different variants are never
equal), `nil` equals `nil`, booleans by truth value, numbers by IEEE
numeric equality (so NaN is unequal to itself and the two zeroes are equal),
and objects by reference. -/
theorem C8_valuesEqual_contract :
    (∀ a b : Value, a.type ≠ b.type → valuesEqual a b = false) ∧
    valuesEqual Value.nil Value.nil = true ∧
    (∀ x y : Bool, valuesEqual (Value.bool x) (Value.bool y) = (x == y)) ∧
    (∀ s t : Bool, ∀ m n : ℚ,
      valuesEqual (Value.number (F64.fin s m)) (Value.number (F64.fin t n))
        = decide (F64.real s m = F64.real t n)) ∧
    valuesEqual (Value.number F64.nan) (Value.number F64.nan) = false ∧
    valuesEqual (Value.number (F64.fin true 0)) (Value.number (F64.fin false 0)) = true ∧
    (∀ r s : Nat, valuesEqual (Value.obj r) (Value.obj s) = (r == s)) := by
  refine ⟨?_, rfl, fun x y => rfl, fun s t m n => rfl, rfl, by decide, fun r s => rfl⟩
  intro a b h
  cases a <;> cases b <;> first | rfl | exact absurd rfl h

/-- Witness for the hypothesis-bearing conjunct of C8: a nil and a boolean
have different tags and compare unequal. -/
theorem C8_valuesEqual_contract_witness :
    valuesEqual Value.nil (Value.bool true) = false :=
  C8_valuesEqual_contract.1 Value.nil (Value.bool true) (by decide)

/-! ## Claim C6: calling a class value -/

/-- C6: when the callee of a Call is a Class, the callee stack slot is
replaced by a fresh Instance of that class (the heap gains the instance at
the allocated address, its class being the callee, its field table empty);
if the class's method table has an entry for the cached "init" string, that
closure is invoked with the call's argCount via `call`; otherwise the call
succeeds exactly when argCount is 0, and a nonzero argCount raises the
runtime error. -/
theorem C6_call_class (s : VMState) (initString : ObjString)
    (freshRef ref argCount : Nat) (name : ObjString) (methods : Table)
    (h : s.heap ref = some (.classObj name methods)) :
    let s2 : VMState :=
      { s with
        heap := fun r => if r = freshRef then some (.instanceObj ref initTable)
                         else s.heap r,
        stack := s.stack.set argCount (Value.obj freshRef) }
    s2.stack = s.stack.set argCount (Value.obj freshRef) ∧
    s2.heap freshRef = some (.instanceObj ref initTable) ∧
    (∀ iref : Nat, tableGet methods initString = some (Value.obj iref) →
      callValue s initString freshRef (Value.obj ref) argCount
        = call s2 iref argCount) ∧
    (tableGet methods initString = none →
      (argCount = 0 →
        callValue s initString freshRef (Value.obj ref) argCount = .ok s2) ∧
      (argCount ≠ 0 →
        callValue s initString freshRef (Value.obj ref) argCount
          = .err "Expected 0  arguments but got %d.")) := by
  intro s2
  refine ⟨rfl, by simp, ?_, ?_⟩
  · intro iref hinit
    simp only [callValue, h, hinit]
  · intro hinit
    constructor
    · intro h0
      subst h0
      simp only [callValue, h, hinit]
      simp
    · intro h0
      simp only [callValue, h, hinit, if_pos h0]

/-- Witness for C6: a class with no methods, called with zero arguments,
yields the fresh instance in the callee slot. -/
theorem C6_call_class_witness :
    let s0 : VMState :=
      { heap := fun r => if r = 0 then some (.classObj ⟨7, 7⟩ initTable) else none,
        stack := [Value.obj 0], frames := [] }
    let s2 : VMState :=
      { s0 with
        heap := fun r => if r = 1 then some (.instanceObj 0 initTable)
                         else s0.heap r,
        stack := s0.stack.set 0 (Value.obj 1) }
    s2.stack = s0.stack.set 0 (Value.obj 1) ∧
    s2.heap 1 = some (.instanceObj 0 initTable) ∧
    (∀ iref : Nat, tableGet initTable ⟨9, 9⟩ = some (Value.obj iref) →
      callValue s0 ⟨9, 9⟩ 1 (Value.obj 0) 0 = call s2 iref 0) ∧
    (tableGet initTable ⟨9, 9⟩ = none →
      (0 = 0 → callValue s0 ⟨9, 9⟩ 1 (Value.obj 0) 0 = .ok s2) ∧
      ((0 : Nat) ≠ 0 → callValue s0 ⟨9, 9⟩ 1 (Value.obj 0) 0
          = .err "Expected 0  arguments but got %d.")) :=
  C6_call_class _ ⟨9, 9⟩ 1 0 0 ⟨7, 7⟩ initTable rfl

/-! ## Claim C10: calling a native value -/

/-- C10: dispatching a Call on a Native performs no arity check: for every
argument count the native's function pointer is applied to the arguments,
`argCount + 1` slots are removed from the value stack, the result is pushed,
and the dispatch never produces a runtime error; the built-in clock native
ignores its arguments entirely. -/
theorem C10_call_native (s : VMState) (initString : ObjString)
    (freshRef ref argCount : Nat) (fn : Nat → List Value → Value)
    (h : s.heap ref = some (.native fn)) :
    callValue s initString freshRef (Value.obj ref) argCount
      = .ok { s with
          stack := fn argCount (s.stack.take argCount).reverse
            :: s.stack.drop (argCount + 1) } ∧
    (argCount + 1 ≤ s.stack.length →
      (fn argCount (s.stack.take argCount).reverse
          :: s.stack.drop (argCount + 1)).length
        = s.stack.length - argCount) ∧
    (∀ now : F64, ∀ n m : Nat, ∀ args brgs : List Value,
      clockNative now n args = clockNative now m brgs) := by
  refine ⟨by simp only [callValue, h], ?_, fun now n m args brgs => rfl⟩
  intro hlen
  simp only [List.length_cons, List.length_drop]
  omega

/-- Witness for C10: the clock native called with two ignored arguments on a
three-value stack. -/
theorem C10_call_native_witness :
    let s0 : VMState :=
      { heap := fun r => if r = 5 then some (.native (clockNative (F64.fin false 2)))
                         else none,
        stack := [Value.nil, Value.bool true, Value.obj 5], frames := [] }
    callValue s0 ⟨9, 9⟩ 1 (Value.obj 5) 2
      = .ok { s0 with
          stack := clockNative (F64.fin false 2) 2 (s0.stack.take 2).reverse
            :: s0.stack.drop 3 } ∧
    (2 + 1 ≤ s0.stack.length →
      (clockNative (F64.fin false 2) 2 (s0.stack.take 2).reverse
          :: s0.stack.drop 3).length = s0.stack.length - 2) ∧
    (∀ now : F64, ∀ n m : Nat, ∀ args brgs : List Value,
      clockNative now n args = clockNative now m brgs) :=
  C10_call_native _ ⟨9, 9⟩ 1 5 2 (clockNative (F64.fin false 2)) rfl

/-- A power of two is positive. -/
theorem isPow2_pos (n : Nat) (h : isPow2 n) : 0 < n := by
  obtain ⟨m, _, rfl⟩ := h
  exact Nat.pos_pow_of_pos _ (by omega)

/-- Masking with `cap - 1` is reduction mod `cap` when `cap` is a power of
two: the optimized wrap-around of table.c. -/
theorem isPow2_and_eq_mod (cap : Nat) (hp : isPow2 cap) (x : Nat) :
    x &&& (cap - 1) = x % cap := by
  obtain ⟨m, _, rfl⟩ := hp
  exact Nat.and_pow_two_sub_one_eq_mod x m

/-- Doubling preserves being a power of two. -/
theorem isPow2_two_mul (n : Nat) (h : isPow2 n) : isPow2 (n * 2) := by
  obtain ⟨m, _, rfl⟩ := h
  refine ⟨m + 1, ?_, by ring⟩
  have := Nat.lt_two_pow (m + 1)
  omega

/-- Probing from a fixed home visits distinct buckets at distinct offsets
below the capacity. -/
theorem probe_inj (cap h : Nat) (j1 j2 : Nat)
    (hj1 : j1 < cap) (hj2 : j2 < cap)
    (he : (h + j1) % cap = (h + j2) % cap) : j1 = j2 := by
  rcases Nat.le_total j1 j2 with hle | hle
  · have hmod : (h + j1) ≡ (h + j2) [MOD cap] := he
    have hc : j1 ≡ j2 [MOD cap] := Nat.ModEq.add_left_cancel (Nat.ModEq.refl h) hmod
    have hdvd : cap ∣ j2 - j1 := (Nat.modEq_iff_dvd' hle).mp hc
    rcases Nat.eq_zero_or_pos (j2 - j1) with h0 | hpos
    · omega
    · have := Nat.le_of_dvd hpos hdvd
      omega
  · have hmod : (h + j2) ≡ (h + j1) [MOD cap] := he.symm
    have hc : j2 ≡ j1 [MOD cap] := Nat.ModEq.add_left_cancel (Nat.ModEq.refl h) hmod
    have hdvd : cap ∣ j1 - j2 := (Nat.modEq_iff_dvd' hle).mp hc
    rcases Nat.eq_zero_or_pos (j1 - j2) with h0 | hpos
    · omega
    · have := Nat.le_of_dvd hpos hdvd
      omega

/-- Reading a bucket through `get?` at a valid index. -/
theorem get?_eq_entryAt (entries : List Entry) (i : Nat)
    (h : i < entries.length) :
    entries.get? i = some (entryAt entries i) := by
  simp [entryAt, List.getD, List.get?_eq_getElem?, List.getElem?_eq_getElem h]

/-- Reading an untouched bucket after a `set`. -/
theorem entryAt_set_ne (entries : List Entry) (i j : Nat) (e : Entry)
    (h : i ≠ j) : entryAt (entries.set i e) j = entryAt entries j := by
  simp [entryAt, List.getD, List.get?_eq_getElem?, List.getElem?_set_ne h]

/-- Reading the overwritten bucket after a `set`. -/
theorem entryAt_set_self (entries : List Entry) (i : Nat) (e : Entry)
    (h : i < entries.length) : entryAt (entries.set i e) i = e := by
  simp [entryAt, List.getD, List.get?_eq_getElem?, List.getElem?_set_self, h]

/-- Reading a bucket at a valid index. -/
theorem entryAt_eq_getElem (entries : List Entry) (i : Nat)
    (h : i < entries.length) : entryAt entries i = entries[i] := by
  simp [entryAt, List.getD, List.get?_eq_getElem?, List.getElem?_eq_getElem h]

/-- One full probing walk: if the first `d` probed buckets are live and hold
keys other than `k`, and the bucket at offset `d` either holds `k` or is
truly empty, the loop stops there.  Fuel exceeding `d` suffices. -/
theorem findEntryLoop_path (entries : List Entry) (cap : Nat) (k : ObjString)
    (hp : isPow2 cap) (hlen : entries.length = cap) :
    ∀ d start fuel, start < cap → d < fuel →
      (∀ j, j < d → (entryAt entries ((start + j) % cap)).key.isSome ∧
          (entryAt entries ((start + j) % cap)).key ≠ some k) →
      ((entryAt entries ((start + d) % cap)).key = some k ∨
        entryAt entries ((start + d) % cap) = ⟨none, Value.nil⟩) →
      findEntryLoop entries cap k start none fuel = some ((start + d) % cap) := by
  intro d
  induction d with
  | zero =>
    intro start fuel hstart hfuel _ hstop
    obtain ⟨f, rfl⟩ : ∃ f, fuel = f + 1 := ⟨fuel - 1, by omega⟩
    have hidx : (start + 0) % cap = start := by
      rw [Nat.add_zero, Nat.mod_eq_of_lt hstart]
    rw [hidx] at hstop ⊢
    have hget : entries.get? start = some (entryAt entries start) :=
      get?_eq_entryAt entries start (by omega)
    rcases hstop with hk | he
    · simp only [findEntryLoop, hget, hk]
      simp
    · simp only [findEntryLoop, hget, he]
      rfl
  | succ d ih =>
    intro start fuel hstart hfuel hpath hstop
    obtain ⟨f, rfl⟩ : ∃ f, fuel = f + 1 := ⟨fuel - 1, by omega⟩
    have hcap : 0 < cap := isPow2_pos cap hp
    obtain ⟨hlive, hne⟩ := hpath 0 (by omega)
    have hidx0 : (start + 0) % cap = start := by
      rw [Nat.add_zero, Nat.mod_eq_of_lt hstart]
    rw [hidx0] at hlive hne
    obtain ⟨k0, hk0⟩ := Option.isSome_iff_exists.mp hlive
    have hk0ne : ¬ (k0 = k) := fun h => hne (by rw [hk0, h])
    have hget : entries.get? start = some (entryAt entries start) :=
      get?_eq_entryAt entries start (by omega)
    have hmask : (start + 1) &&& (cap - 1) = (start + 1) % cap :=
      isPow2_and_eq_mod cap hp (start + 1)
    have hshift : ∀ j, ((start + 1) % cap + j) % cap = (start + (j + 1)) % cap := by
      intro j
      rw [Nat.mod_add_mod]
      congr 1
      omega
    simp only [findEntryLoop, hget, hk0, if_neg hk0ne, hmask]
    have hres := ih ((start + 1) % cap) f (Nat.mod_lt _ hcap) (by omega)
      (fun j hj => by
        rw [hshift j]
        exact hpath (j + 1) (by omega))
      (by
        rw [hshift d]
        have : start + (d + 1) = start + d + 1 := by omega
        rw [this] at hstop ⊢
        exact hstop)
    rw [hres, hshift d]

/-- Indexed reading of key uniqueness: the same key cannot sit in two
distinct buckets. -/
theorem uniqKeys_index (entries : List Entry) (hu : uniqKeys entries)
    (i j : Nat) (hi : i < entries.length) (hj : j < entries.length)
    (hne : i ≠ j) (k : ObjString) (hki : (entryAt entries i).key = some k)
    (hkj : (entryAt entries j).key = some k) : False := by
  have hgi : entryAt entries i = entries[i] := by
    simp [entryAt, List.getD, List.get?_eq_getElem?, List.getElem?_eq_getElem hi]
  have hgj : entryAt entries j = entries[j] := by
    simp [entryAt, List.getD, List.get?_eq_getElem?, List.getElem?_eq_getElem hj]
  rw [hgi] at hki
  rw [hgj] at hkj
  rcases Nat.lt_or_ge i j with hlt | hge
  · have := (List.pairwise_iff_getElem.mp hu) i j hi hj hlt
    exact this (by rw [hki]; rfl) (by rw [hki, hkj])
  · have hlt : j < i := by omega
    have := (List.pairwise_iff_getElem.mp hu) j i hj hi hlt
    exact this (by rw [hkj]; rfl) (by rw [hki, hkj])

/-- Every bucket index is hit by some probe offset below the capacity. -/
theorem probe_surj (cap h e : Nat) (hcap : 0 < cap) (he : e < cap) :
    ∃ d, d < cap ∧ (h + d) % cap = e := by
  refine ⟨(cap + e - h % cap) % cap, Nat.mod_lt _ hcap, ?_⟩
  have hlt : h % cap < cap := Nat.mod_lt _ hcap
  rw [← Nat.mod_add_mod, Nat.add_mod_mod]
  have : h % cap + (cap + e - h % cap) = cap + e := by omega
  rw [this, Nat.add_mod_left, Nat.mod_eq_of_lt he]

/-- A live bucket makes the live count positive. -/
theorem liveCount_pos (entries : List Entry) (i : Nat)
    (hi : i < entries.length) (hl : (entryAt entries i).key.isSome) :
    0 < liveCount entries := by
  have hmem : entryAt entries i ∈ entries := by
    have : entryAt entries i = entries[i] := by
      simp [entryAt, List.getD, List.get?_eq_getElem?, List.getElem?_eq_getElem hi]
    rw [this]
    exact List.getElem_mem hi
  have : entryAt entries i ∈ entries.filter entryLive :=
    List.mem_filter.mpr ⟨hmem, hl⟩
  have := List.length_pos.mpr (List.ne_nil_of_mem this)
  simpa [liveCount] using this

/-- A live count below the bucket count leaves some NULL-key bucket. -/
theorem exists_empty_bucket (entries : List Entry)
    (h : liveCount entries < entries.length) :
    ∃ i, i < entries.length ∧ (entryAt entries i).key = none := by
  by_contra hc
  push_neg at hc
  have hall : ∀ e ∈ entries, entryLive e := by
    intro e he
    obtain ⟨i, hi, rfl⟩ := List.mem_iff_getElem.mp he
    have : entryAt entries i = entries[i] := by
      simp [entryAt, List.getD, List.get?_eq_getElem?, List.getElem?_eq_getElem hi]
    have hk := hc i hi
    rw [this] at hk
    simpa [entryLive, Option.isSome_iff_ne_none] using hk
  have : entries.filter entryLive = entries := List.filter_eq_self.mpr hall
  rw [liveCount, this] at h
  omega

/-- `findEntry` returns the bucket of a present key, and the walk to it is
live and avoids `k`. -/
theorem findEntry_present (entries : List Entry) (cap : Nat) (k : ObjString)
    (i : Nat) (hwf : entriesWF entries cap) (hi : i < cap)
    (hk : (entryAt entries i).key = some k) :
    findEntry entries cap k = some i ∧ probePathStrict entries cap k i := by
  obtain ⟨hp, hlen, htomb, huniq, hprobe⟩ := hwf
  have hcap : 0 < cap := isPow2_pos cap hp
  have hsome : (entryAt entries i).key.isSome := by rw [hk]; rfl
  obtain ⟨d, hd, hpe, hlive⟩ := hprobe i hi hsome
  rw [hk] at hpe hlive
  simp only [Option.getD_some] at hpe hlive
  have hstrict : ∀ j, j < d →
      (entryAt entries ((k.hash % cap + j) % cap)).key.isSome ∧
      (entryAt entries ((k.hash % cap + j) % cap)).key ≠ some k := by
    intro j hj
    refine ⟨hlive j hj, ?_⟩
    intro hkj
    have hjlt : (k.hash % cap + j) % cap < cap := Nat.mod_lt _ hcap
    have hne : (k.hash % cap + j) % cap ≠ i := by
      intro he
      rw [← hpe] at he
      have := probe_inj cap (k.hash % cap) j d (by omega) hd he
      omega
    exact uniqKeys_index entries huniq _ i (by omega) (by omega) hne k hkj hk
  have hmask : k.hash &&& (cap - 1) = k.hash % cap :=
    isPow2_and_eq_mod cap hp k.hash
  have := findEntryLoop_path entries cap k hp hlen d (k.hash % cap) cap
    (Nat.mod_lt _ hcap) hd hstrict (by rw [hpe]; exact Or.inl hk)
  rw [hpe] at this
  refine ⟨?_, ⟨d, hd, hpe, hstrict⟩⟩
  rw [findEntry, hmask]
  exact this

/-- `findEntry` on an absent key returns a truly empty bucket, reached by a
live walk avoiding `k`. -/
theorem findEntry_absent (entries : List Entry) (cap : Nat) (k : ObjString)
    (hwf : entriesWF entries cap) (habs : ¬ keyIn entries k)
    (hroom : liveCount entries < cap) :
    ∃ i, i < cap ∧ findEntry entries cap k = some i ∧
      entryAt entries i = ⟨none, Value.nil⟩ ∧
      probePathStrict entries cap k i := by
  obtain ⟨hp, hlen, htomb, huniq, hprobe⟩ := hwf
  have hcap : 0 < cap := isPow2_pos cap hp
  have hnok : ∀ j, j < cap → (entryAt entries j).key ≠ some k := by
    intro j hj hkj
    apply habs
    refine ⟨entryAt entries j, ?_, hkj⟩
    have : entryAt entries j = entries[j] := by
      simp [entryAt, List.getD, List.get?_eq_getElem?,
        List.getElem?_eq_getElem (by omega : j < entries.length)]
    rw [this]
    exact List.getElem_mem _
  obtain ⟨e0, he0, hk0⟩ := exists_empty_bucket entries (by omega)
  obtain ⟨d0, hd0, hpd0⟩ := probe_surj cap (k.hash % cap) e0 hcap (by omega)
  have hex : ∃ d, d < cap ∧ (entryAt entries ((k.hash % cap + d) % cap)).key = none :=
    ⟨d0, hd0, by rw [hpd0]; exact hk0⟩
  classical
  let P : Nat → Prop := fun d =>
    d < cap ∧ (entryAt entries ((k.hash % cap + d) % cap)).key = none
  have hfind := Nat.find_spec hex
  set d := Nat.find hex with hd
  obtain ⟨hdlt, hdnone⟩ := hfind
  have hmin : ∀ j, j < d →
      ¬ (j < cap ∧ (entryAt entries ((k.hash % cap + j) % cap)).key = none) :=
    fun j hj => Nat.find_min hex hj
  have hstrict : ∀ j, j < d →
      (entryAt entries ((k.hash % cap + j) % cap)).key.isSome ∧
      (entryAt entries ((k.hash % cap + j) % cap)).key ≠ some k := by
    intro j hj
    have hjc : j < cap := by omega
    have := hmin j hj
    have hksome : (entryAt entries ((k.hash % cap + j) % cap)).key ≠ none := by
      intro hnone
      exact this ⟨hjc, hnone⟩
    exact ⟨Option.isSome_iff_ne_none.mpr hksome, hnok _ (Nat.mod_lt _ hcap)⟩
  have hentry : entryAt entries ((k.hash % cap + d) % cap) = ⟨none, Value.nil⟩ := by
    have hmem : entryAt entries ((k.hash % cap + d) % cap) ∈ entries := by
      have hlt : (k.hash % cap + d) % cap < entries.length := by
        rw [hlen]; exact Nat.mod_lt _ hcap
      rw [entryAt_eq_getElem entries _ hlt]
      exact List.getElem_mem _
    have hval := htomb _ hmem hdnone
    cases hE : entryAt entries ((k.hash % cap + d) % cap) with
    | mk key value =>
      rw [hE] at hdnone hval
      simp at hdnone hval
      rw [hdnone, hval]
  have hmask : k.hash &&& (cap - 1) = k.hash % cap :=
    isPow2_and_eq_mod cap hp k.hash
  have hloop := findEntryLoop_path entries cap k hp hlen d (k.hash % cap) cap
    (Nat.mod_lt _ hcap) hdlt hstrict (Or.inr hentry)
  refine ⟨(k.hash % cap + d) % cap, Nat.mod_lt _ hcap, ?_, hentry, ⟨d, hdlt, rfl, hstrict⟩⟩
  rw [findEntry, hmask]
  exact hloop

/-- After writing `k`'s entry into the bucket `findEntry` chose, a fresh
`findEntry` returns the same bucket. -/
theorem findEntry_after_set (entries : List Entry) (cap : Nat) (k : ObjString)
    (i : Nat) (v : Value) (hp : isPow2 cap) (hlen : entries.length = cap)
    (hi : i < cap) (hpath : probePathStrict entries cap k i) :
    findEntry (entries.set i ⟨some k, v⟩) cap k = some i := by
  have hcap : 0 < cap := isPow2_pos cap hp
  obtain ⟨d, hd, hpe, hstrict⟩ := hpath
  have hlen2 : (entries.set i ⟨some k, v⟩).length = cap := by
    rw [List.length_set, hlen]
  have hstrict2 : ∀ j, j < d →
      (entryAt (entries.set i ⟨some k, v⟩) ((k.hash % cap + j) % cap)).key.isSome ∧
      (entryAt (entries.set i ⟨some k, v⟩) ((k.hash % cap + j) % cap)).key ≠ some k := by
    intro j hj
    have hne : i ≠ (k.hash % cap + j) % cap := by
      intro he
      rw [← hpe] at he
      have := probe_inj cap (k.hash % cap) d j hd (by omega) he
      omega
    rw [entryAt_set_ne entries i _ _ hne]
    exact hstrict j hj
  have hstop : (entryAt (entries.set i ⟨some k, v⟩) ((k.hash % cap + d) % cap)).key
      = some k := by
    rw [hpe, entryAt_set_self entries i _ (by omega)]
  have hloop := findEntryLoop_path (entries.set i ⟨some k, v⟩) cap k hp hlen2 d
    (k.hash % cap) cap (Nat.mod_lt _ hcap) hd hstrict2 (Or.inl hstop)
  rw [findEntry, isPow2_and_eq_mod cap hp k.hash]
  rw [hpe] at hloop
  exact hloop

/-- Live count of a cons. -/
theorem liveCount_cons (e : Entry) (rest : List Entry) :
    liveCount (e :: rest) = (if entryLive e then 1 else 0) + liveCount rest := by
  simp only [liveCount, List.filter_cons]
  split <;> simp [Nat.add_comm]

/-- Live-count bookkeeping for overwriting one bucket. -/
theorem liveCount_set (entries : List Entry) (i : Nat) (e1 : Entry)
    (hi : i < entries.length) :
    liveCount (entries.set i e1) + (if entryLive (entryAt entries i) then 1 else 0)
      = liveCount entries + (if entryLive e1 then 1 else 0) := by
  induction entries generalizing i with
  | nil => simp at hi
  | cons e rest ih =>
    cases i with
    | zero =>
      have h0 : entryAt (e :: rest) 0 = e := rfl
      rw [List.set_cons_zero, h0, liveCount_cons, liveCount_cons]
      omega
    | succ n =>
      have hn : n < rest.length := by simpa using hi
      have h0 : entryAt (e :: rest) (n + 1) = entryAt rest n := rfl
      rw [List.set_cons_succ, h0, liveCount_cons, liveCount_cons]
      have := ih n hn
      omega

/-- The all-empty bucket array reads as the empty bucket everywhere. -/
theorem entryAt_replicate (c i : Nat) :
    entryAt (List.replicate c (⟨none, Value.nil⟩ : Entry)) i = ⟨none, Value.nil⟩ := by
  rcases Nat.lt_or_ge i c with h | h
  · rw [entryAt_eq_getElem _ i (by simpa using h), List.getElem_replicate]
  · have hge : (List.replicate c (⟨none, Value.nil⟩ : Entry)).length ≤ i := by
      rw [List.length_replicate]
      omega
    simp [entryAt, List.getD, List.get?_eq_getElem?, List.getElem?_eq_none hge]

/-- The all-empty bucket array has no live buckets. -/
theorem liveCount_replicate (c : Nat) :
    liveCount (List.replicate c (⟨none, Value.nil⟩ : Entry)) = 0 := by
  induction c with
  | zero => rfl
  | succ n ih => rw [List.replicate_succ, liveCount_cons, ih]; rfl

/-- The all-empty bucket array holds no key. -/
theorem keyIn_replicate (c : Nat) (k : ObjString) :
    ¬ keyIn (List.replicate c (⟨none, Value.nil⟩ : Entry)) k := by
  rintro ⟨e, he, hk⟩
  rw [List.eq_of_mem_replicate he] at hk
  cases hk

/-- Overwriting a bucket with a keyed entry cannot create a tombstone. -/
theorem noTombstones_set (entries : List Entry) (i : Nat) (k : ObjString)
    (v : Value) (ht : noTombstones entries) :
    noTombstones (entries.set i ⟨some k, v⟩) := by
  intro e he hk
  rcases List.mem_or_eq_of_mem_set he with hmem | heq
  · exact ht e hmem hk
  · rw [heq] at hk
    cases hk

/-- Writing a fresh key into any bucket keeps keys distinct. -/
theorem uniqKeys_set (entries : List Entry) (k : ObjString) (v : Value)
    (hu : uniqKeys entries) (hfresh : ¬ keyIn entries k) :
    ∀ i, uniqKeys (entries.set i ⟨some k, v⟩) := by
  induction entries with
  | nil =>
    intro i
    simp [List.set]
  | cons e rest ih =>
    obtain ⟨hhead, htail⟩ := List.pairwise_cons.mp hu
    intro i
    cases i with
    | zero =>
      rw [List.set_cons_zero]
      refine List.pairwise_cons.mpr ⟨?_, htail⟩
      intro e2 he2 _ heq
      exact hfresh ⟨e2, List.mem_cons_of_mem e he2, heq.symm⟩
    | succ n =>
      rw [List.set_cons_succ]
      have hfresh2 : ¬ keyIn rest k := by
        rintro ⟨e2, he2, hk2⟩
        exact hfresh ⟨e2, List.mem_cons_of_mem e he2, hk2⟩
      refine List.pairwise_cons.mpr ⟨?_, ih htail hfresh2 n⟩
      intro e2 he2 hsome heq
      rcases List.mem_or_eq_of_mem_set he2 with hmem | heq2
      · exact hhead e2 hmem hsome heq
      · rw [heq2] at heq
        exact hfresh ⟨e, List.mem_cons_self e rest, heq⟩

/-- The keys of a bucket array after writing `k` are `k` and the old keys. -/
theorem keyIn_set (entries : List Entry) (i : Nat) (k k2 : ObjString)
    (v : Value) (h : keyIn (entries.set i ⟨some k, v⟩) k2) :
    k2 = k ∨ keyIn entries k2 := by
  obtain ⟨e, he, hk⟩ := h
  rcases List.mem_or_eq_of_mem_set he with hmem | heq
  · exact Or.inr ⟨e, hmem, hk⟩
  · rw [heq] at hk
    cases hk
    exact Or.inl rfl

/-- Writing a key along an existing probe path preserves probe-reachability
of every stored key (the overwritten bucket only becomes live). -/
theorem probeOk_set (entries : List Entry) (cap : Nat) (i : Nat)
    (k : ObjString) (v : Value) (hlen : entries.length = cap) (hi : i < cap)
    (hpo : probeOk entries cap) (hpath : probePath entries cap k i) :
    probeOk (entries.set i ⟨some k, v⟩) cap := by
  have hmono : ∀ q, (entryAt entries q).key.isSome →
      (entryAt (entries.set i ⟨some k, v⟩) q).key.isSome := by
    intro q hq
    by_cases hqi : i = q
    · subst hqi
      rw [entryAt_set_self entries i _ (by omega)]
      rfl
    · rw [entryAt_set_ne entries i q _ hqi]
      exact hq
  intro p hpcap hplive
  by_cases hpi : p = i
  · subst hpi
    rw [entryAt_set_self entries p _ (by omega)] at hplive ⊢
    show probePath (entries.set p ⟨some k, v⟩) cap k p
    obtain ⟨d, hd, hpe, hlive⟩ := hpath
    refine ⟨d, hd, hpe, fun j hj => ?_⟩
    by_cases hq : p = (k.hash % cap + j) % cap
    · rw [← hq, entryAt_set_self entries p _ (by omega)]
      rfl
    · rw [entryAt_set_ne entries p _ _ hq]
      exact hlive j hj
  · rw [entryAt_set_ne entries i p _ (fun h => hpi h.symm)] at hplive ⊢
    obtain ⟨d, hd, hpe, hlive⟩ := hpo p hpcap hplive
    exact ⟨d, hd, hpe, fun j hj => hmono _ (hlive j hj)⟩

/-- A bucket read at a valid index is one of the array's entries. -/
theorem entryAt_mem (entries : List Entry) (i : Nat) (hi : i < entries.length) :
    entryAt entries i ∈ entries := by
  rw [entryAt_eq_getElem entries i hi]
  exact List.getElem_mem hi

/-- Rewriting the value stored under an existing key keeps keys distinct. -/
theorem uniqKeys_set_update (entries : List Entry) (i : Nat) (k : ObjString)
    (v : Value) (hu : uniqKeys entries) (hi : i < entries.length)
    (hk : (entryAt entries i).key = some k) :
    uniqKeys (entries.set i ⟨some k, v⟩) := by
  induction entries generalizing i with
  | nil => simp at hi
  | cons e rest ih =>
    obtain ⟨hhead, htail⟩ := List.pairwise_cons.mp hu
    cases i with
    | zero =>
      have h0 : entryAt (e :: rest) 0 = e := rfl
      rw [h0] at hk
      rw [List.set_cons_zero]
      refine List.pairwise_cons.mpr ⟨?_, htail⟩
      intro e2 he2 _ heq
      exact hhead e2 he2 (by rw [hk]; rfl) (by rw [hk]; exact heq)
    | succ n =>
      have hn : n < rest.length := by simpa using hi
      have h0 : entryAt (e :: rest) (n + 1) = entryAt rest n := rfl
      rw [h0] at hk
      rw [List.set_cons_succ]
      refine List.pairwise_cons.mpr ⟨?_, ih n htail hn hk⟩
      intro e2 he2 hsome heq
      rcases List.mem_or_eq_of_mem_set he2 with hmem | heq2
      · exact hhead e2 hmem hsome heq
      · rw [heq2] at heq
        have hmem2 : entryAt rest n ∈ rest := entryAt_mem rest n hn
        exact hhead (entryAt rest n) hmem2 hsome (by rw [heq, ← hk])

/-- Inserting a fresh key into the truly empty bucket found by `findEntry`
preserves the bucket-array invariants and raises the live count by one. -/
theorem entriesWF_set_insert (entries : List Entry) (cap : Nat)
    (k : ObjString) (v : Value) (i : Nat) (hwf : entriesWF entries cap)
    (hi : i < cap) (hempty : entryAt entries i = ⟨none, Value.nil⟩)
    (hfresh : ¬ keyIn entries k) (hpath : probePath entries cap k i) :
    entriesWF (entries.set i ⟨some k, v⟩) cap ∧
    liveCount (entries.set i ⟨some k, v⟩) = liveCount entries + 1 := by
  obtain ⟨hp, hlen, htomb, huniq, hprobe⟩ := hwf
  refine ⟨⟨hp, by rw [List.length_set, hlen],
    noTombstones_set entries i k v htomb,
    uniqKeys_set entries k v huniq hfresh i,
    probeOk_set entries cap i k v hlen hi hprobe hpath⟩, ?_⟩
  have hlc := liveCount_set entries i ⟨some k, v⟩ (by omega)
  rw [hempty] at hlc
  simp [entryLive] at hlc
  omega

/-- Overwriting the value under an existing key preserves the bucket-array
invariants and the live count. -/
theorem entriesWF_set_update (entries : List Entry) (cap : Nat)
    (k : ObjString) (v : Value) (i : Nat) (hwf : entriesWF entries cap)
    (hi : i < cap) (hkey : (entryAt entries i).key = some k) :
    entriesWF (entries.set i ⟨some k, v⟩) cap ∧
    liveCount (entries.set i ⟨some k, v⟩) = liveCount entries := by
  obtain ⟨hp, hlen, htomb, huniq, hprobe⟩ := hwf
  have hsome : (entryAt entries i).key.isSome := by rw [hkey]; rfl
  have hpath : probePath entries cap k i := by
    have := hprobe i hi hsome
    rw [hkey] at this
    simpa using this
  refine ⟨⟨hp, by rw [List.length_set, hlen],
    noTombstones_set entries i k v htomb,
    uniqKeys_set_update entries i k v huniq (by omega) hkey,
    probeOk_set entries cap i k v hlen hi hprobe hpath⟩, ?_⟩
  have hlc := liveCount_set entries i ⟨some k, v⟩ (by omega)
  simp [entryLive, hkey] at hlc
  omega

/-- The all-empty bucket array keeps keys distinct (there are none). -/
theorem uniqKeys_replicate (c : Nat) :
    uniqKeys (List.replicate c (⟨none, Value.nil⟩ : Entry)) := by
  induction c with
  | zero => exact List.Pairwise.nil
  | succ n ih =>
    rw [List.replicate_succ]
    refine List.pairwise_cons.mpr ⟨?_, ih⟩
    intro e2 _ h
    simp at h

/-- The all-empty bucket array is well formed at its own capacity. -/
theorem entriesWF_blank (cap : Nat) (hp : isPow2 cap) :
    entriesWF (List.replicate cap (⟨none, Value.nil⟩ : Entry)) cap := by
  refine ⟨hp, by simp, ?_, uniqKeys_replicate cap, ?_⟩
  · intro e he _
    rw [List.eq_of_mem_replicate he]
  · intro p _ hlive
    rw [entryAt_replicate] at hlive
    simp at hlive

/-- The reinsertion loop of `adjustCapacity`: starting from a well-formed
accumulator whose keys are disjoint from the (pairwise distinct) keys still
to be moved, the fold keeps the array well formed, keeps the counter equal
to the live count, and keeps the live count within the total. -/
theorem adjustStep_fold (cap : Nat) (total : Nat) (htot : total < cap) :
    ∀ (olds : List Entry) (cnt : Nat) (es : List Entry),
      entriesWF es cap →
      cnt = liveCount es →
      liveCount es + liveCount olds ≤ total →
      uniqKeys olds →
      (∀ k2, keyIn es k2 → ¬ keyIn olds k2) →
      entriesWF (olds.foldl (adjustStep cap) (cnt, es)).2 cap ∧
      (olds.foldl (adjustStep cap) (cnt, es)).1
        = liveCount (olds.foldl (adjustStep cap) (cnt, es)).2 ∧
      liveCount (olds.foldl (adjustStep cap) (cnt, es)).2 ≤ total := by
  intro olds
  induction olds with
  | nil =>
    intro cnt es hwf hcnt hle _ _
    simp only [List.foldl_nil]
    refine ⟨hwf, hcnt, ?_⟩
    have h0 : liveCount ([] : List Entry) = 0 := rfl
    rw [h0] at hle
    omega
  | cons e rest ih =>
    intro cnt es hwf hcnt hle huo hdisj
    obtain ⟨hhead, htail⟩ := List.pairwise_cons.mp huo
    rw [List.foldl_cons]
    cases hek : e.key with
    | none =>
      have hstep : adjustStep cap (cnt, es) e = (cnt, es) := by
        simp [adjustStep, hek]
      rw [hstep]
      refine ih cnt es hwf hcnt ?_ htail ?_
      · have hl : entryLive e = false := by simp [entryLive, hek]
        rw [liveCount_cons, hl] at hle
        simpa using hle
      · rintro k2 hk2 ⟨e2, he2, hke2⟩
        exact hdisj k2 hk2 ⟨e2, List.mem_cons_of_mem e he2, hke2⟩
    | some kk =>
      have hlivee : entryLive e = true := by simp [entryLive, hek]
      have hlec : liveCount (e :: rest) = 1 + liveCount rest := by
        rw [liveCount_cons, hlivee]
        rfl
      have hfresh : ¬ keyIn es kk :=
        fun hk => hdisj kk hk ⟨e, List.mem_cons_self e rest, hek⟩
      have hroom : liveCount es < cap := by omega
      obtain ⟨i, hicap, hfe, hempty, hstrict⟩ :=
        findEntry_absent es cap kk hwf hfresh hroom
      have hstep : adjustStep cap (cnt, es) e
          = (cnt + 1, es.set i ⟨some kk, e.value⟩) := by
        simp [adjustStep, hek, hfe]
      rw [hstep]
      have hpath : probePath es cap kk i := by
        obtain ⟨d, hd, hpe, hst⟩ := hstrict
        exact ⟨d, hd, hpe, fun j hj => (hst j hj).1⟩
      obtain ⟨hwf2, hlc2⟩ :=
        entriesWF_set_insert es cap kk e.value i hwf hicap hempty hfresh hpath
      refine ih (cnt + 1) _ hwf2 (by omega) (by omega) htail ?_
      intro k2 hk2
      rcases keyIn_set es i kk k2 e.value hk2 with heq | hold
      · subst heq
        rintro ⟨e2, he2, hke2⟩
        exact hhead e2 he2 (by rw [hek]; rfl) (by rw [hek, hke2])
      · rintro ⟨e2, he2, hke2⟩
        exact hdisj k2 hold ⟨e2, List.mem_cons_of_mem e he2, hke2⟩

/-- Specification of `adjustCapacity` on a table with distinct keys: the
rehashed table is well formed at the new capacity, its counter is the live
count, and the live count stays below the new capacity. -/
theorem adjustCapacity_wf (t : Table) (newcap : Nat) (hp : isPow2 newcap)
    (huniq : uniqKeys t.entries) (htot : liveCount t.entries < newcap) :
    entriesWF (adjustCapacity t newcap).entries newcap ∧
    (adjustCapacity t newcap).count
      = liveCount (adjustCapacity t newcap).entries ∧
    liveCount (adjustCapacity t newcap).entries < newcap ∧
    (adjustCapacity t newcap).capacity = newcap := by
  have hfold := adjustStep_fold newcap (liveCount t.entries) htot t.entries 0
    (List.replicate newcap ⟨none, Value.nil⟩)
    (entriesWF_blank newcap hp)
    (by rw [liveCount_replicate])
    (by rw [liveCount_replicate]; omega)
    huniq
    (fun k2 hk2 => absurd hk2 (keyIn_replicate newcap k2))
  simp only [adjustCapacity]
  refine ⟨hfold.1, hfold.2.1, ?_, trivial⟩
  have := hfold.2.2
  omega

/-- The bucket-update half of `tableSet` followed by `tableGet` of the same
key returns the value just stored, for any well-formed bucket array with
room. -/
theorem tableSetBody_get (t1 : Table) (k : ObjString) (v : Value)
    (hwf : entriesWF t1.entries t1.capacity)
    (hcnt : t1.count = liveCount t1.entries)
    (hroom : liveCount t1.entries < t1.capacity) :
    tableGet (tableSetBody t1 k v).1 k = some v := by
  obtain ⟨hp, hlen, htomb, huniq, hpo⟩ := hwf
  by_cases hin : keyIn t1.entries k
  · -- the key is present: its bucket is overwritten in place
    obtain ⟨e, he, hke⟩ := hin
    obtain ⟨i, hi, hei⟩ := List.mem_iff_getElem.mp he
    have hicap : i < t1.capacity := by omega
    have hkey : (entryAt t1.entries i).key = some k := by
      rw [entryAt_eq_getElem _ _ hi, hei, hke]
    obtain ⟨hfe, hstrict⟩ := findEntry_present t1.entries t1.capacity k i
      ⟨hp, hlen, htomb, huniq, hpo⟩ hicap hkey
    have hget : t1.entries.get? i = some (entryAt t1.entries i) :=
      get?_eq_entryAt _ _ (by omega)
    have hnotnew : (entryAt t1.entries i).key.isNone = false := by
      rw [hkey]
      rfl
    have hfe2 : findEntry (t1.entries.set i ⟨some k, v⟩) t1.capacity k = some i :=
      findEntry_after_set t1.entries t1.capacity k i v hp hlen hicap hstrict
    have hpos : 0 < liveCount t1.entries :=
      liveCount_pos t1.entries i (by omega) (by rw [hkey]; rfl)
    simp only [tableSetBody, hfe, hget, hnotnew]
    simp only [Bool.false_eq_true, false_and, if_neg, ite_false]
    simp only [tableGet, hfe2]
    have hcount0 : t1.count ≠ 0 := by omega
    rw [if_neg hcount0]
    have hget2 : (t1.entries.set i ⟨some k, v⟩).get? i
        = some (⟨some k, v⟩ : Entry) := by
      rw [get?_eq_entryAt _ _ (by rw [List.length_set]; omega),
        entryAt_set_self _ _ _ (by omega)]
    rw [hget2]
  · -- the key is absent: a truly empty bucket is consumed
    obtain ⟨i, hicap, hfe, hempty, hstrict⟩ :=
      findEntry_absent t1.entries t1.capacity k
        ⟨hp, hlen, htomb, huniq, hpo⟩ hin hroom
    have hget : t1.entries.get? i = some (entryAt t1.entries i) :=
      get?_eq_entryAt _ _ (by omega)
    have hfe2 : findEntry (t1.entries.set i ⟨some k, v⟩) t1.capacity k = some i :=
      findEntry_after_set t1.entries t1.capacity k i v hp hlen hicap hstrict
    simp only [tableSetBody, hfe, hget, hempty]
    simp only [Option.isNone_none, true_and, if_pos, ite_true]
    simp only [tableGet, hfe2]
    have hcount0 : t1.count + 1 ≠ 0 := by omega
    rw [if_neg hcount0]
    have hget2 : (t1.entries.set i ⟨some k, v⟩).get? i
        = some (⟨some k, v⟩ : Entry) := by
      rw [get?_eq_entryAt _ _ (by rw [List.length_set]; omega),
        entryAt_set_self _ _ _ (by omega)]
    rw [hget2]

/-- `tableSet` followed by `tableGet` of the same key returns the value
just stored, on every well-formed table. -/
theorem tableSet_get (t : Table) (k : ObjString) (v : Value)
    (hwf : tableWF t) : tableGet (tableSet t k v).1 k = some v := by
  rcases hwf with ⟨hc0, hcnt0, hent0⟩ | ⟨hp, hlen, hcnt, hltcap, htomb, huniq, hpo⟩
  · -- pristine table: the first insertion grows to capacity 8
    have hg : 4 * (t.count + 1) > 3 * t.capacity := by
      rw [hc0, hcnt0]
      omega
    have hlt8 : t.capacity < 8 := by omega
    have hadj : adjustCapacity t (if t.capacity < 8 then 8 else t.capacity * 2)
        = ⟨0, 8, List.replicate 8 ⟨none, Value.nil⟩⟩ := by
      rw [if_pos hlt8]
      simp [adjustCapacity, hent0]
    simp only [tableSet, if_pos hg, hadj]
    refine tableSetBody_get ⟨0, 8, List.replicate 8 ⟨none, Value.nil⟩⟩ k v
      (entriesWF_blank 8 (by decide)) ?_ ?_
    · decide
    · decide
  · by_cases hg : 4 * (t.count + 1) > 3 * t.capacity
    · have hcappos : 0 < t.capacity := isPow2_pos _ hp
      have hpnew : isPow2 (if t.capacity < 8 then 8 else t.capacity * 2) := by
        split
        · decide
        · exact isPow2_two_mul _ hp
      have htotnew : liveCount t.entries
          < (if t.capacity < 8 then 8 else t.capacity * 2) := by
        split <;> omega
      obtain ⟨hwf2, hcnt2, hlt2, hcap2⟩ :=
        adjustCapacity_wf t _ hpnew huniq htotnew
      simp only [tableSet, if_pos hg]
      exact tableSetBody_get _ k v (by rw [hcap2]; exact hwf2) hcnt2
        (by rw [hcap2]; exact hlt2)
    · simp only [tableSet, if_neg hg]
      exact tableSetBody_get t k v ⟨hp, hlen, htomb, huniq, hpo⟩ hcnt (by omega)

/-! ## Claim C9: DefineGlobal silently rebinds -/

/-- C9: the `OP_DEFINE_GLOBAL` case calls `tableSet` unconditionally,
ignores its result and has no error path (its embedding `opDefineGlobal`
returns only the new table), so defining a name that is already bound in a
well-formed globals table silently replaces the binding: a subsequent
`tableGet` of the name returns the newly stored value — the later value
wins. -/
theorem C9_defineGlobal_replaces (globals : Table) (name : ObjString)
    (w v : Value) (hwf : tableWF globals)
    (_hbound : tableGet globals name = some w) :
    tableGet (opDefineGlobal globals name v) name = some v :=
  tableSet_get globals name v hwf

/-- Witness for C9: `var a = 1; var a = 2;` leaves `a` bound to 2. -/
theorem C9_defineGlobal_replaces_witness :
    tableGet (opDefineGlobal
        (opDefineGlobal initTable ⟨1, 1⟩ (Value.number (F64.fin false 1)))
        ⟨1, 1⟩ (Value.number (F64.fin false 2))) ⟨1, 1⟩
      = some (Value.number (F64.fin false 2)) :=
  C9_defineGlobal_replaces _ ⟨1, 1⟩ (Value.number (F64.fin false 1))
    (Value.number (F64.fin false 2)) (by decide) (by decide)

end Clox
